import Mathlib

/-!
Verification of the string-processing, token-counting, polling and cost-estimation
logic of the azure-openai-raft-workshop notebooks, shallowly embedded in Lean.

Python strings are modelled as `List Char`; `str.split(sep)` for a non-empty
separator is modelled by `pySplit` (left-to-right, non-overlapping scan), and
`str.split(c)` for the single-character separator used by `extract_context`
is modelled by `List.splitOn`.
-/

namespace Raft

/-- Fuel-indexed scan implementing Python `str.split(sep)` for a non-empty `sep`:
scan the string left to right; whenever `sep` is a prefix of the remaining input,
emit a boundary and continue after the separator.  The fuel only bounds the
recursion depth; `s.length` is always enough fuel. -/
def pySplitF (sep : List Char) : Nat → List Char → List (List Char)
  | _, [] => [[]]
  | 0, s => [s]
  | fuel + 1, c :: rest =>
    if sep ≠ [] ∧ sep <+: c :: rest then
      [] :: pySplitF sep fuel (List.drop (sep.length - 1) rest)
    else
      match pySplitF sep fuel rest with
      | [] => [[c]]
      | p :: ps => (c :: p) :: ps

/-- Python `s.split(sep)` for non-empty `sep`, as a total function on `List Char`. -/
def pySplit (sep s : List Char) : List (List Char) :=
  pySplitF sep s.length s

/-- `sep` cannot overlap itself: no nontrivial suffix of `sep` is a prefix of `sep`.
This holds for the answer marker and rules out overlapping occurrences. -/
def NoSelfOverlap (sep : List Char) : Prop :=
  ∀ k, k < sep.length → 0 < k → ¬ (List.drop k sep <+: sep)

/-- The chain-of-thought answer marker used by `extract_final_answer`. -/
def marker : List Char := "<ANSWER>: ".data

/-- Embedding of `extract_final_answer` from the evaluation notebook:
`if cot_answer: return cot_answer.split("<ANSWER>: ")[-1]` else `return None`.
A Python string is falsy exactly when it is `None` or empty. -/
def extract_final_answer (cot_answer : Option (List Char)) : Option (List Char) :=
  match cot_answer with
  | some s => if s ≠ [] then some ((pySplit marker s).getLastD []) else none
  | none => none

/-- Embedding of `extract_context` from the evaluation notebook:
`"\n".join(instruction.split("\n")[:-1])`. -/
def extract_context (instruction : List Char) : List Char :=
  List.intercalate ['\n'] ((instruction.splitOn '\n').dropLast)

/-- The last line of a string, i.e. Python `s.split("\n")[-1]`; the evaluation
notebook assumes it holds the question. -/
def lastLine (s : List Char) : List Char :=
  (s.splitOn '\n').getLastD []

/-- The per-row wrapping of the context column from the evaluation notebook:
`lambda x: [x] if x else []`. -/
def wrap_contexts (x : List Char) : List (List Char) :=
  if x ≠ [] then [x] else []

/-- Embedding of `get_model_completions` from the evaluation notebook.  The remote
chat-completion call is modelled as a function `call` from the message list to
an `Except`: `Except.error` stands for a raised exception, which the
`try`/`except` block converts to `None`. -/
def get_model_completions (call : List (List (List Char × List Char)) → Except (List Char) (List Char))
    (prompt : List Char) : Option (List Char) :=
  match call [[("role".data, "user".data), ("content".data, prompt)]] with
  | Except.ok content => some content
  | Except.error _ => none

/-- Embedding of `num_tokens_from_messages` from the fine-tuning notebook, parametric in the
tokenizer `enc` (`len(encoding.encode(value))`).  A message is a list of
key/value pairs (a Python dict in iteration order). -/
def num_tokens_from_messages (enc : List Char → Nat)
    (tokens_per_message tokens_per_name : Nat)
    (messages : List (List (List Char × List Char))) : Nat :=
  (messages.foldl (fun acc message =>
    message.foldl (fun acc2 kv =>
      acc2 + enc kv.2 + (if kv.1 = "role".data then tokens_per_name else 0))
      (acc + tokens_per_message)) 0) + 3

/-- Total tokenizer count of all field values of all messages. -/
def field_token_total (enc : List Char → Nat)
    (messages : List (List (List Char × List Char))) : Nat :=
  (messages.map (fun m => (m.map (fun kv => enc kv.2)).sum)).sum

/-- Number of fields whose key is `"role"`, over all messages. -/
def role_key_count (messages : List (List (List Char × List Char))) : Nat :=
  (messages.map (fun m => (m.filter (fun kv => kv.1 = "role".data)).length)).sum

/-- The terminal set of the fine-tuning job poll loop:
`status not in ["succeeded", "failed"]` is the loop guard. -/
def terminal_status (s : List Char) : Prop :=
  s ∈ ["succeeded".data, "failed".data]

instance (s : List Char) : Decidable (terminal_status s) := by
  unfold terminal_status; infer_instance

/-- The polling loop of the fine-tuning notebook.  `retrieve n` is the status
returned by the `n`-th call of `client.fine_tuning.jobs.retrieve`; the loop
checks the current status and, while it is not terminal, sleeps 10 seconds and
retrieves again.  The accumulated `sleeps` list records each sleep duration.
The loop in the notebook is unbounded; `fuel` only truncates the embedding, and
`none` means the loop was still running after `fuel` further retrievals. -/
def pollLoop (retrieve : Nat → List Char) :
    Nat → Nat → List Nat → Option (List Char × List Nat)
  | 0, k, sleeps =>
    if terminal_status (retrieve k) then some (retrieve k, sleeps) else none
  | fuel2 + 1, k, sleeps =>
    if terminal_status (retrieve k) then some (retrieve k, sleeps)
    else pollLoop retrieve fuel2 (k + 1) (sleeps ++ [10])

/-- The polling loop with a fallible status retrieval.  The notebook wraps the
`retrieve` call in no `try`/`except`, so a raised exception (`Except.error`)
propagates out of the loop unchanged. -/
def pollLoopE (retrieve : Nat → Except (List Char) (List Char)) :
    Nat → Nat → Except (List Char) (Option (List Char))
  | 0, k =>
    match retrieve k with
    | Except.error e => Except.error e
    | Except.ok s =>
      if terminal_status s then Except.ok (some s) else Except.ok none
  | fuel2 + 1, k =>
    match retrieve k with
    | Except.error e => Except.error e
    | Except.ok s =>
      if terminal_status s then Except.ok (some s)
      else pollLoopE retrieve fuel2 (k + 1)

/-- Training price per token from the fine-tuning notebook:
`0.003300 / 1000` dollars. -/
def training_cost_per_token : ℚ := 33 / 10000 / 1000

/-- Cost estimate: `total_cost = num_tokens * training_cost_per_token * num_epochs`. -/
def total_cost (num_tokens num_epochs : Nat) : ℚ :=
  (num_tokens : ℚ) * training_cost_per_token * (num_epochs : ℚ)

/-- A concrete fallible chat-completion call used by the C4 witness: the call
raises for the prompt `"bad"` and succeeds otherwise. -/
def badCall : List (List (List Char × List Char)) → Except (List Char) (List Char) :=
  fun msgs =>
    if msgs = [[("role".data, "user".data), ("content".data, "bad".data)]] then
      Except.error "boom".data
    else Except.ok "<ANSWER>: 42".data

/-- A concrete fallible status retrieval for the C8 witness: the first poll
returns a running status, the second raises. -/
def flakyRetrieve : Nat → Except (List Char) (List Char) :=
  fun n => if n = 0 then Except.ok "running".data
    else Except.error "connection reset".data

/-! ## Lemmas -/

theorem marker_ne_nil : marker ≠ [] := by decide

theorem marker_no_self_overlap : NoSelfOverlap marker := by
  unfold NoSelfOverlap
  decide

theorem pySplitF_nil (sep : List Char) (n : Nat) : pySplitF sep n [] = [[]] := by
  cases n <;> rfl

theorem pySplitF_ne_nil (sep : List Char) :
    ∀ (n : Nat) (s : List Char), pySplitF sep n s ≠ [] := by
  intro n s
  match n, s with
  | _, [] => rw [pySplitF_nil]; simp
  | 0, c :: rest => simp [pySplitF]
  | fuel + 1, c :: rest =>
    rw [pySplitF]
    by_cases hp : sep ≠ [] ∧ sep <+: c :: rest
    · rw [if_pos hp]; simp
    · rw [if_neg hp]
      cases pySplitF sep fuel rest <;> simp

theorem pySplitF_congr (sep : List Char) :
    ∀ (n m : Nat) (s : List Char), s.length ≤ n → s.length ≤ m →
      pySplitF sep n s = pySplitF sep m s := by
  intro n
  induction n with
  | zero =>
    intro m s hn _
    have : s = [] := List.length_eq_zero.mp (Nat.le_zero.mp hn)
    subst this
    rw [pySplitF_nil, pySplitF_nil]
  | succ n ih =>
    intro m s hn hm
    cases s with
    | nil => rw [pySplitF_nil, pySplitF_nil]
    | cons c rest =>
      cases m with
      | zero => simp at hm
      | succ m =>
        rw [pySplitF, pySplitF]
        by_cases hp : sep ≠ [] ∧ sep <+: c :: rest
        · rw [if_pos hp, if_pos hp]
          have hd : (List.drop (sep.length - 1) rest).length ≤ rest.length := by
            rw [List.length_drop]; omega
          rw [ih m (List.drop (sep.length - 1) rest) (by simp at hn; omega)
                (by simp at hm; omega)]
        · rw [if_neg hp, if_neg hp]
          rw [ih m rest (by simp at hn; omega) (by simp at hm; omega)]

theorem pySplit_nil (sep : List Char) : pySplit sep [] = [[]] := rfl

theorem pySplit_ne_nil (sep s : List Char) : pySplit sep s ≠ [] :=
  pySplitF_ne_nil sep s.length s

theorem pySplit_cons_pos {sep : List Char} (c : Char) (rest : List Char)
    (h1 : sep ≠ []) (h2 : sep <+: c :: rest) :
    pySplit sep (c :: rest) = [] :: pySplit sep (List.drop (sep.length - 1) rest) := by
  show pySplitF sep (rest.length + 1) (c :: rest) = _
  rw [pySplitF, if_pos ⟨h1, h2⟩]
  have hd : (List.drop (sep.length - 1) rest).length ≤ rest.length := by
    rw [List.length_drop]; omega
  rw [pySplitF_congr sep rest.length (List.drop (sep.length - 1) rest).length
        (List.drop (sep.length - 1) rest) hd le_rfl]
  rfl

theorem pySplit_cons_neg {sep : List Char} (c : Char) (rest p : List Char)
    (ps : List (List Char))
    (h : ¬(sep ≠ [] ∧ sep <+: c :: rest)) (hrest : pySplit sep rest = p :: ps) :
    pySplit sep (c :: rest) = (c :: p) :: ps := by
  show pySplitF sep (rest.length + 1) (c :: rest) = _
  rw [pySplitF, if_neg h]
  have : pySplitF sep rest.length rest = p :: ps := hrest
  rw [this]

theorem intercalate_single (sep x : List Char) : List.intercalate sep [x] = x := by
  simp [List.intercalate]

theorem intercalate_cons₂ (sep a b : List Char) (l : List (List Char)) :
    List.intercalate sep (a :: b :: l) = a ++ sep ++ List.intercalate sep (b :: l) := by
  simp [List.intercalate, List.append_assoc]

theorem getLastD_cons_of_ne_nil {p : List Char} {ps : List (List Char)}
    (h : ps ≠ []) (d : List Char) : (p :: ps).getLastD d = ps.getLastD d := by
  rw [List.getLastD_cons]
  cases ps with
  | nil => exact absurd rfl h
  | cons q qs => rw [List.getLastD_cons, List.getLastD_cons]

theorem cons_eq_append_drop {sep : List Char} {c : Char} {rest : List Char}
    (h1 : sep ≠ []) (h2 : sep <+: c :: rest) :
    c :: rest = sep ++ List.drop (sep.length - 1) rest := by
  obtain ⟨t, ht⟩ := h2
  have hlen : sep.length - 1 + 1 = sep.length :=
    Nat.succ_pred_eq_of_pos (List.length_pos.mpr h1)
  have hd := List.drop_left sep t
  rw [ht] at hd
  rw [← hlen, List.drop_succ_cons] at hd
  rw [← ht, hd]

/-- The parts produced by `pySplit`, re-joined with the separator, give back the
original string (the scan never loses or duplicates characters). -/
theorem intercalate_pySplit (sep s : List Char) :
    List.intercalate sep (pySplit sep s) = s := by
  generalize hn : s.length = n
  induction n using Nat.strong_induction_on generalizing s with
  | _ n ih =>
    cases s with
    | nil => rw [pySplit_nil, intercalate_single]
    | cons c rest =>
      by_cases hp : sep ≠ [] ∧ sep <+: c :: rest
      · rw [pySplit_cons_pos c rest hp.1 hp.2]
        obtain ⟨q, qs, hq⟩ :=
          List.exists_cons_of_ne_nil (pySplit_ne_nil sep (List.drop (sep.length - 1) rest))
        have hrec : List.intercalate sep (pySplit sep (List.drop (sep.length - 1) rest))
            = List.drop (sep.length - 1) rest := by
          refine ih (List.drop (sep.length - 1) rest).length ?_ _ rfl
          rw [List.length_drop]
          simp only [List.length_cons] at hn
          omega
        rw [hq] at hrec ⊢
        rw [intercalate_cons₂, List.nil_append, hrec]
        exact (cons_eq_append_drop hp.1 hp.2).symm
      · obtain ⟨p, ps, hrest⟩ := List.exists_cons_of_ne_nil (pySplit_ne_nil sep rest)
        rw [pySplit_cons_neg c rest p ps hp hrest]
        have hrec : List.intercalate sep (p :: ps) = rest := by
          have := ih rest.length (by simp only [List.length_cons] at hn; omega) rest rfl
          rwa [hrest] at this
        cases ps with
        | nil => rw [intercalate_single] at hrec ⊢; rw [hrec]
        | cons q qs =>
          rw [intercalate_cons₂] at hrec
          rw [intercalate_cons₂, ← hrec]
          simp [List.append_assoc]

/-- A string with no occurrence of the separator is returned whole, as the single part. -/
theorem pySplit_of_not_infix {sep s : List Char} (h : ¬ sep <:+: s) : pySplit sep s = [s] := by
  induction s with
  | nil => exact pySplit_nil sep
  | cons c rest ih =>
    have hpre : ¬ sep <+: c :: rest := fun hp => h hp.isInfix
    have hrest : ¬ sep <:+: rest := fun hi => h (List.infix_cons_iff.mpr (Or.inr hi))
    exact pySplit_cons_neg c rest rest [] (fun hh => hpre hh.2) (ih hrest)

/-- The last part produced by `pySplit` is a suffix of the input string. -/
theorem pySplit_getLastD_suffix (sep s : List Char) :
    (pySplit sep s).getLastD [] <:+ s := by
  generalize hn : s.length = n
  induction n using Nat.strong_induction_on generalizing s with
  | _ n ih =>
    cases s with
    | nil => rw [pySplit_nil]; simp
    | cons c rest =>
      by_cases hp : sep ≠ [] ∧ sep <+: c :: rest
      · rw [pySplit_cons_pos c rest hp.1 hp.2]
        rw [getLastD_cons_of_ne_nil (pySplit_ne_nil _ _)]
        have hsuf : (pySplit sep (List.drop (sep.length - 1) rest)).getLastD []
            <:+ List.drop (sep.length - 1) rest := by
          refine ih (List.drop (sep.length - 1) rest).length ?_ _ rfl
          rw [List.length_drop]
          simp only [List.length_cons] at hn
          omega
        exact hsuf.trans ((List.drop_suffix _ _).trans (List.suffix_cons c rest))
      · obtain ⟨p, ps, hrest⟩ := List.exists_cons_of_ne_nil (pySplit_ne_nil sep rest)
        rw [pySplit_cons_neg c rest p ps hp hrest]
        have hih : (p :: ps).getLastD [] <:+ rest := by
          have := ih rest.length (by simp only [List.length_cons] at hn; omega) rest rfl
          rwa [hrest] at this
        cases ps with
        | nil =>
          have hrec := intercalate_pySplit sep rest
          rw [hrest, intercalate_single] at hrec
          subst hrec
          exact List.suffix_rfl
        | cons q qs =>
          rw [getLastD_cons_of_ne_nil (by simp)]
          rw [getLastD_cons_of_ne_nil (by simp)] at hih
          exact hih.trans (List.suffix_cons c rest)

/-- The last part produced by `pySplit` contains no occurrence of the separator. -/
theorem not_infix_pySplit_getLastD {sep : List Char} (hsep : sep ≠ []) (s : List Char) :
    ¬ sep <:+: (pySplit sep s).getLastD [] := by
  generalize hn : s.length = n
  induction n using Nat.strong_induction_on generalizing s with
  | _ n ih =>
    cases s with
    | nil =>
      rw [pySplit_nil]
      simpa using fun h => hsep (List.infix_nil.mp h)
    | cons c rest =>
      by_cases hpre : sep <+: c :: rest
      · rw [pySplit_cons_pos c rest hsep hpre]
        rw [getLastD_cons_of_ne_nil (pySplit_ne_nil _ _)]
        refine ih (List.drop (sep.length - 1) rest).length ?_ _ rfl
        rw [List.length_drop]
        simp only [List.length_cons] at hn
        omega
      · obtain ⟨p, ps, hrest⟩ := List.exists_cons_of_ne_nil (pySplit_ne_nil sep rest)
        rw [pySplit_cons_neg c rest p ps (fun hh => hpre hh.2) hrest]
        have hih : ¬ sep <:+: (p :: ps).getLastD [] := by
          have := ih rest.length (by simp only [List.length_cons] at hn; omega) rest rfl
          rwa [hrest] at this
        cases ps with
        | nil =>
          have hrec := intercalate_pySplit sep rest
          rw [hrest, intercalate_single] at hrec
          subst hrec
          simp only [List.getLastD] at hih ⊢
          intro hcontra
          rcases List.infix_cons_iff.mp hcontra with h | h
          · exact hpre h
          · exact hih h
        | cons q qs =>
          rw [getLastD_cons_of_ne_nil (by simp)]
          rwa [getLastD_cons_of_ne_nil (by simp)] at hih

/-- Splitting a string that starts with the separator emits a boundary and
continues after the separator. -/
theorem pySplit_prefix_step {sep s : List Char} (h1 : sep ≠ []) (h2 : sep <+: s) :
    pySplit sep s = [] :: pySplit sep (List.drop sep.length s) := by
  cases s with
  | nil =>
    obtain ⟨t, ht⟩ := h2
    exact absurd (List.append_eq_nil.mp ht).1 h1
  | cons c rest =>
    rw [pySplit_cons_pos c rest h1 h2]
    have hlen : sep.length - 1 + 1 = sep.length :=
      Nat.succ_pred_eq_of_pos (List.length_pos.mpr h1)
    conv_rhs => rw [← hlen, List.drop_succ_cons]

/-- For a non-self-overlapping separator, the last `pySplit` part of
`u ++ sep ++ b` is exactly `b` whenever `b` itself has no occurrence of `sep`:
the scan finds the displayed occurrence last. -/
theorem pySplit_getLastD_of_append {sep : List Char} (hov : NoSelfOverlap sep) :
    ∀ (u b : List Char), ¬ sep <:+: b →
      (pySplit sep (u ++ sep ++ b)).getLastD [] = b := by
  intro u
  generalize hn : u.length = n
  induction n using Nat.strong_induction_on generalizing u with
  | _ n ih =>
    intro b hb
    have hsep : sep ≠ [] := fun h => hb (h ▸ List.nil_infix)
    cases u with
    | nil =>
      rw [List.nil_append, pySplit_prefix_step hsep (List.prefix_append sep b),
        List.drop_left, getLastD_cons_of_ne_nil (pySplit_ne_nil _ _),
        pySplit_of_not_infix hb]
      rfl
    | cons c u2 =>
      by_cases hpre : sep <+: (c :: u2) ++ sep ++ b
      · rcases Nat.lt_or_ge (c :: u2).length sep.length with hlt | hge
        · -- an occurrence of `sep` at position 0 would overlap the one at
          -- position `(c :: u2).length`: contradiction with `NoSelfOverlap`.
          exfalso
          have htake : sep = List.take sep.length ((c :: u2) ++ (sep ++ b)) := by
            have := List.prefix_iff_eq_take.mp hpre
            rwa [List.append_assoc] at this
          have h1 : List.take sep.length ((c :: u2) ++ (sep ++ b))
              = (c :: u2) ++ List.take (sep.length - (c :: u2).length) (sep ++ b) := by
            rw [List.take_append_eq_append_take, List.take_of_length_le (Nat.le_of_lt hlt)]
          have h2 : List.take (sep.length - (c :: u2).length) (sep ++ b)
              = List.take (sep.length - (c :: u2).length) sep := by
            rw [List.take_append_eq_append_take,
              (by omega : sep.length - (c :: u2).length - sep.length = 0),
              List.take_zero, List.append_nil]
          have hsep2 : sep = (c :: u2) ++ List.take (sep.length - (c :: u2).length) sep :=
            htake.trans (h1.trans (by rw [h2]))
          have hdrop : List.drop (c :: u2).length sep
              = List.take (sep.length - (c :: u2).length) sep := by
            conv_lhs => rw [hsep2]
            exact List.drop_left (c :: u2) _
          have hcontra : List.drop (c :: u2).length sep <+: sep := by
            rw [hdrop]; exact List.take_prefix _ _
          exact hov (c :: u2).length hlt (by simp) hcontra
        · rw [pySplit_prefix_step hsep hpre,
            getLastD_cons_of_ne_nil (pySplit_ne_nil _ _)]
          have heq : List.drop sep.length ((c :: u2) ++ sep ++ b)
              = List.drop sep.length (c :: u2) ++ sep ++ b := by
            rw [List.append_assoc, List.drop_append_of_le_length hge, List.append_assoc]
          rw [heq]
          refine ih (List.drop sep.length (c :: u2)).length ?_ _ rfl b hb
          rw [List.length_drop]
          have hpos : 0 < sep.length := List.length_pos.mpr hsep
          simp only [List.length_cons] at hn ⊢
          omega
      · have hcons : (c :: u2) ++ sep ++ b = c :: (u2 ++ sep ++ b) := by
          simp [List.append_assoc]
        rw [hcons]
        obtain ⟨p, ps, hrest⟩ :=
          List.exists_cons_of_ne_nil (pySplit_ne_nil sep (u2 ++ sep ++ b))
        have hp : ¬(sep ≠ [] ∧ sep <+: c :: (u2 ++ sep ++ b)) := by
          rw [← hcons]; exact fun hh => hpre hh.2
        rw [pySplit_cons_neg c _ p ps hp hrest]
        have hih : (p :: ps).getLastD [] = b := by
          have := ih u2.length (by simp only [List.length_cons] at hn; omega) u2 rfl b hb
          rwa [hrest] at this
        cases ps with
        | nil =>
          exfalso
          have hrec := intercalate_pySplit sep (u2 ++ sep ++ b)
          rw [hrest, intercalate_single] at hrec
          simp only [List.getLastD_cons, List.getLastD_nil] at hih
          rw [hih] at hrec
          have hlen := congrArg List.length hrec
          have hpos : 0 < sep.length := List.length_pos.mpr hsep
          simp only [List.length_append] at hlen
          omega
        | cons q qs =>
          rw [getLastD_cons_of_ne_nil (by simp)]
          rwa [getLastD_cons_of_ne_nil (by simp)] at hih

/-! ## Program definitions, embedded from the notebooks -/

theorem intercalate_append_single (sep x : List Char) :
    ∀ (l : List (List Char)), l ≠ [] →
      List.intercalate sep (l ++ [x]) = List.intercalate sep l ++ sep ++ x := by
  intro l
  induction l with
  | nil => intro h; exact absurd rfl h
  | cons a l ih =>
    intro _
    cases l with
    | nil =>
      simp [intercalate_cons₂, intercalate_single]
    | cons b l2 =>
      have hih := ih (List.cons_ne_nil b l2)
      simp only [List.cons_append] at hih ⊢
      rw [intercalate_cons₂, hih, intercalate_cons₂]
      simp [List.append_assoc]

theorem getLastD_append_eq {l : List (List Char)} (h : l ≠ []) :
    l.dropLast ++ [l.getLastD []] = l := by
  cases l with
  | nil => exact absurd rfl h
  | cons p ps =>
    rw [List.getLastD_cons, ← List.getLast_eq_getLastD]
    exact List.dropLast_append_getLast (List.cons_ne_nil p ps)

theorem two_le_splitOn_length (s : List Char) (h : ('\n') ∈ s) :
    2 ≤ (s.splitOn '\n').length := by
  induction s with
  | nil => simp at h
  | cons c rest ih =>
    show 2 ≤ ((c :: rest).splitOnP (· == '\n')).length
    rw [List.splitOnP_cons]
    by_cases hc : c = '\n'
    · rw [if_pos (by simp [hc])]
      have hne := List.splitOnP_ne_nil (· == '\n') rest
      have := List.length_pos.mpr hne
      simp only [List.length_cons]
      omega
    · rw [if_neg (by simp [hc])]
      obtain ⟨p, ps, hps⟩ :=
        List.exists_cons_of_ne_nil (List.splitOnP_ne_nil (· == '\n') rest)
      have hmem : ('\n') ∈ rest := by
        rcases List.mem_cons.mp h with heq | hmem
        · exact absurd heq.symm hc
        · exact hmem
      have hih := ih hmem
      simp only [List.splitOn] at hih
      rw [hps] at hih ⊢
      simpa using hih

/-! ## Claim theorems -/

/-- C1: `extract_final_answer` returns the substring of its input after the last
occurrence of the literal marker `"<ANSWER>: "` (equivalently: the part after an
occurrence whose tail is marker-free); for every non-empty string containing no
occurrence of the marker it returns the whole string unchanged; and for a null
or empty input it returns null. -/
theorem C1_extract_final_answer :
    extract_final_answer none = none ∧
    extract_final_answer (some []) = none ∧
    (∀ s : List Char, s ≠ [] → ¬ marker <:+: s →
      extract_final_answer (some s) = some s) ∧
    (∀ u b : List Char, ¬ marker <:+: b →
      extract_final_answer (some (u ++ marker ++ b)) = some b) := by
  refine ⟨rfl, rfl, ?_, ?_⟩
  · intro s hs hinf
    simp only [extract_final_answer]
    rw [if_pos hs, pySplit_of_not_infix hinf]
    rfl
  · intro u b hb
    have hne : u ++ marker ++ b ≠ [] := by
      intro hcontra
      rcases List.append_eq_nil.mp hcontra with ⟨h1, _⟩
      rcases List.append_eq_nil.mp h1 with ⟨_, h2⟩
      exact marker_ne_nil h2
    simp only [extract_final_answer]
    rw [if_pos hne, pySplit_getLastD_of_append marker_no_self_overlap u b hb]

/-- C1 witness: the spec's concrete examples. -/
theorem C1_witness :
    extract_final_answer (some ("reasoning text <ANSWER>: 42".data)) = some ("42".data) ∧
    extract_final_answer (some ("no marker here".data)) = some ("no marker here".data) ∧
    extract_final_answer none = none := by
  refine ⟨?_, ?_, C1_extract_final_answer.1⟩
  · exact C1_extract_final_answer.2.2.2 "reasoning text ".data "42".data (by decide)
  · exact C1_extract_final_answer.2.2.1 "no marker here".data (by decide) (by decide)

/-- C9: for every non-empty string, the extracted final answer is a suffix of
the input, and it contains no occurrence of the marker `"<ANSWER>: "`. -/
theorem C9_suffix_no_marker (s : List Char) (hs : s ≠ []) :
    ∃ t, extract_final_answer (some s) = some t ∧ t <:+ s ∧ ¬ marker <:+: t := by
  refine ⟨(pySplit marker s).getLastD [], ?_, pySplit_getLastD_suffix marker s,
    not_infix_pySplit_getLastD marker_ne_nil s⟩
  simp only [extract_final_answer]
  rw [if_pos hs]

/-- C9 witness at a concrete non-empty input. -/
theorem C9_witness :
    ∃ t, extract_final_answer (some ("x <ANSWER>: 1".data)) = some t ∧
      t <:+ "x <ANSWER>: 1".data ∧ ¬ marker <:+: t :=
  C9_suffix_no_marker "x <ANSWER>: 1".data (by decide)

/-- C2: `extract_context` returns all lines except the final one, joined by
newlines; a single-line input (no newline character) yields the empty string. -/
theorem C2_extract_context :
    (∀ s : List Char, ('\n') ∉ s → extract_context s = []) ∧
    (∀ lines : List (List Char), 2 ≤ lines.length → (∀ l ∈ lines, ('\n') ∉ l) →
      extract_context (List.intercalate ['\n'] lines)
        = List.intercalate ['\n'] lines.dropLast) := by
  constructor
  · intro s hs
    unfold extract_context
    have hsingle : s.splitOn '\n' = [s] := by
      simp only [List.splitOn]
      exact List.splitOnP_eq_single _ _ (fun x hx => by
        simp only [beq_iff_eq]
        intro hcontra
        exact hs (hcontra ▸ hx))
    rw [hsingle]
    rfl
  · intro lines hlen hmem
    unfold extract_context
    have hne : lines ≠ [] := by
      intro hc; rw [hc] at hlen; simp at hlen
    rw [List.splitOn_intercalate lines ('\n') hmem hne]

/-- C2 witness: the spec's concrete examples. -/
theorem C2_witness :
    extract_context ("doc1\ndoc2\nWhat is X?".data) = "doc1\ndoc2".data ∧
    extract_context ("What is X?".data) = [] := by
  constructor
  · exact C2_extract_context.2 ["doc1".data, "doc2".data, "What is X?".data]
      (by decide) (by decide)
  · exact C2_extract_context.1 "What is X?".data (by decide)

/-- C10: for every string containing a newline, the extracted context followed
by a newline and the last line reconstructs the original string exactly. -/
theorem C10_context_reconstruction (s : List Char) (h : ('\n') ∈ s) :
    extract_context s ++ ('\n') :: lastLine s = s := by
  unfold extract_context lastLine
  have hne : s.splitOn '\n' ≠ [] := List.splitOnP_ne_nil _ s
  have hrec : List.intercalate ['\n'] (s.splitOn '\n') = s :=
    List.intercalate_splitOn s '\n'
  have h2 : 2 ≤ (s.splitOn '\n').length := two_le_splitOn_length s h
  have hdrop : (s.splitOn '\n').dropLast ≠ [] := by
    intro hc
    have := congrArg List.length hc
    rw [List.length_dropLast] at this
    simp at this
    omega
  have hstep := intercalate_append_single ['\n'] ((s.splitOn '\n').getLastD [])
    ((s.splitOn '\n').dropLast) hdrop
  rw [getLastD_append_eq hne, hrec] at hstep
  conv_rhs => rw [hstep]
  simp [List.append_assoc, List.getLastD_eq_getLast?]

/-- C10 witness at a concrete two-line input. -/
theorem C10_witness :
    extract_context ("doc1\nWhat is X?".data) ++ ('\n') :: lastLine ("doc1\nWhat is X?".data)
      = "doc1\nWhat is X?".data :=
  C10_context_reconstruction "doc1\nWhat is X?".data (by decide)

/-- C7 counterexample: for a row whose instruction is a single line, the
extracted context is empty and the wrapping `[x] if x else []` produces the
empty list, not a one-element list holding that row's context. -/
theorem C7_counterexample :
    List.map wrap_contexts [extract_context ("What is the fee?".data)]
      ≠ [[extract_context ("What is the fee?".data)]] := by
  decide

/-- C7 amended: each row's contexts entry is the one-element list holding that
row's context when the context is non-empty, and the empty list when the
context is the empty string. -/
theorem C7_contexts_wrapping (rows : List (List Char)) (i : Nat)
    (hi : i < rows.length) :
    (rows.map wrap_contexts).get ⟨i, by simpa using hi⟩
      = if rows.get ⟨i, hi⟩ ≠ [] then [rows.get ⟨i, hi⟩] else [] := by
  simp only [List.get_eq_getElem, List.getElem_map]
  rfl

/-- C7 witness: one non-empty and one empty context row. -/
theorem C7_wrapping_witness :
    (List.map wrap_contexts ["ctx".data, []]).get ⟨1, by decide⟩ = [] ∧
    (List.map wrap_contexts ["ctx".data, []]).get ⟨0, by decide⟩ = ["ctx".data] := by
  constructor
  · have h := C7_contexts_wrapping ["ctx".data, []] 1 (by decide)
    simpa using h
  · have h := C7_contexts_wrapping ["ctx".data, []] 0 (by decide)
    simpa using h

theorem num_tokens_inner (enc : List Char → Nat)
    (m : List (List Char × List Char)) (a : Nat) :
    m.foldl (fun acc2 kv =>
        acc2 + enc kv.2 + (if kv.1 = "role".data then 1 else 0)) a
      = a + (m.map (fun kv => enc kv.2)).sum
          + (m.filter (fun kv => kv.1 = "role".data)).length := by
  induction m generalizing a with
  | nil => simp
  | cons kv m ih =>
    rw [List.foldl_cons, ih]
    by_cases hk : kv.1 = "role".data
    · simp [List.filter_cons, hk]
      omega
    · simp [List.filter_cons, hk]
      omega

theorem num_tokens_outer (enc : List Char → Nat)
    (messages : List (List (List Char × List Char))) (a : Nat) :
    messages.foldl (fun acc message =>
        message.foldl (fun acc2 kv =>
          acc2 + enc kv.2 + (if kv.1 = "role".data then 1 else 0)) (acc + 3)) a
      = a + 3 * messages.length + field_token_total enc messages
          + role_key_count messages := by
  induction messages generalizing a with
  | nil => simp [field_token_total, role_key_count]
  | cons m ms ih =>
    rw [List.foldl_cons, num_tokens_inner, ih]
    simp only [field_token_total, role_key_count, List.map_cons, List.sum_cons,
      List.length_cons]
    omega

/-- C3: with the notebook's defaults (3 tokens per message, 1 per `"role"` key,
3-token suffix), `num_tokens_from_messages` equals 3 per message plus the
tokenizer count of every field value plus 1 per `"role"` key plus 3; in
particular a two-message conversation with one `"role"` key per message counts
`6 + field totals + 2 + 3`. -/
theorem C3_num_tokens :
    (∀ (enc : List Char → Nat) (messages : List (List (List Char × List Char))),
      num_tokens_from_messages enc 3 1 messages
        = 3 * messages.length + field_token_total enc messages
            + role_key_count messages + 3) ∧
    (∀ (enc : List Char → Nat) (m1 m2 : List (List Char × List Char)),
      (m1.filter (fun kv => kv.1 = "role".data)).length = 1 →
      (m2.filter (fun kv => kv.1 = "role".data)).length = 1 →
      num_tokens_from_messages enc 3 1 [m1, m2]
        = 6 + field_token_total enc [m1, m2] + 2 + 3) := by
  have hmain : ∀ (enc : List Char → Nat)
      (messages : List (List (List Char × List Char))),
      num_tokens_from_messages enc 3 1 messages
        = 3 * messages.length + field_token_total enc messages
            + role_key_count messages + 3 := by
    intro enc messages
    unfold num_tokens_from_messages
    rw [num_tokens_outer]
    omega
  refine ⟨hmain, ?_⟩
  intro enc m1 m2 h1 h2
  rw [hmain]
  have hrole : role_key_count [m1, m2] = 2 := by
    simp [role_key_count, h1, h2]
  rw [hrole]
  simp

/-- C3 witness: a concrete tokenizer and two-message conversation. -/
theorem C3_witness :
    num_tokens_from_messages (fun l => l.length) 3 1
        [[("role".data, "user".data), ("content".data, "hi".data)],
         [("role".data, "assistant".data), ("content".data, "yo".data)]]
      = 6 + field_token_total (fun l => l.length)
          [[("role".data, "user".data), ("content".data, "hi".data)],
           [("role".data, "assistant".data), ("content".data, "yo".data)]] + 2 + 3 :=
  C3_num_tokens.2 (fun l => l.length) _ _ (by decide) (by decide)

/-- C6: the estimated training cost is tokens × price-per-token × epochs, and is
therefore linear in the epoch count: with the same token total, 6 epochs cost
exactly twice 3 epochs. -/
theorem C6_cost_linear :
    (∀ t : Nat, total_cost t 6 = 2 * total_cost t 3) ∧
    (∀ t e : Nat, total_cost t e = (t : ℚ) * training_cost_per_token * (e : ℚ)) := by
  constructor
  · intro t
    unfold total_cost
    push_cast
    ring
  · intro t e
    rfl

/-- C4: a per-row inference failure does not abort the batch:
`get_model_completions` converts a raised exception into `none` for that row,
every row of the mapped batch is computed independently of the others, and
`extract_final_answer` of the null response is null. -/
theorem C4_per_row_failure
    (call : List (List (List Char × List Char)) → Except (List Char) (List Char))
    (rows : List (List Char)) (i : Nat) (hi : i < rows.length) (e : List Char)
    (hfail : call [[("role".data, "user".data),
        ("content".data, rows.get ⟨i, hi⟩)]] = Except.error e) :
    (rows.map (get_model_completions call)).length = rows.length ∧
    (rows.map (get_model_completions call)).get ⟨i, by simpa using hi⟩ = none ∧
    extract_final_answer none = none ∧
    (∀ (j : Nat) (hj : j < rows.length),
      (rows.map (get_model_completions call)).get ⟨j, by simpa using hj⟩
        = get_model_completions call (rows.get ⟨j, hj⟩)) := by
  refine ⟨by simp, ?_, rfl, ?_⟩
  · simp only [List.get_eq_getElem, List.getElem_map]
    simp only [List.get_eq_getElem] at hfail
    unfold get_model_completions
    rw [hfail]
  · intro j hj
    simp only [List.get_eq_getElem, List.getElem_map]

/-- C4 witness: a two-row batch whose second row's call raises. -/
theorem C4_witness :
    (["good".data, "bad".data].map (get_model_completions badCall)).length = 2 ∧
    (["good".data, "bad".data].map (get_model_completions badCall)).get ⟨1, by decide⟩
      = none := by
  have h := C4_per_row_failure badCall ["good".data, "bad".data] 1 (by decide)
    "boom".data (by rfl)
  exact ⟨h.1, h.2.1⟩

theorem pollLoop_run (retrieve : Nat → List Char) :
    ∀ (nsteps fuel k : Nat) (sleeps : List Nat),
      (∀ j, j < nsteps → ¬ terminal_status (retrieve (k + j))) →
      terminal_status (retrieve (k + nsteps)) →
      nsteps ≤ fuel →
      pollLoop retrieve fuel k sleeps
        = some (retrieve (k + nsteps), sleeps ++ List.replicate nsteps 10) := by
  intro nsteps
  induction nsteps with
  | zero =>
    intro fuel k sleeps hlt hterm hfuel
    cases fuel <;>
    · rw [pollLoop, if_pos (by simpa using hterm)]
      simp
  | succ n ih =>
    intro fuel k sleeps hlt hterm hfuel
    have h0 : ¬ terminal_status (retrieve k) := by
      have := hlt 0 (Nat.succ_pos n)
      simpa using this
    cases fuel with
    | zero => omega
    | succ fuel2 =>
      rw [pollLoop, if_neg h0]
      have harg : ∀ j, j < n → ¬ terminal_status (retrieve (k + 1 + j)) := by
        intro j hj
        have hx := hlt (j + 1) (by omega)
        have he : k + (j + 1) = k + 1 + j := by omega
        rwa [he] at hx
      have hterm2 : terminal_status (retrieve (k + 1 + n)) := by
        have he : k + (n + 1) = k + 1 + n := by omega
        rwa [he] at hterm
      rw [ih fuel2 (k + 1) (sleeps ++ [10]) harg hterm2 (by omega)]
      have he : k + 1 + n = k + (n + 1) := by omega
      rw [he]
      simp [List.append_assoc, List.replicate_succ]

theorem pollLoop_sound (retrieve : Nat → List Char) :
    ∀ (fuel k : Nat) (sleeps : List Nat) (s : List Char) (out : List Nat),
      (∀ d ∈ sleeps, d = 10) →
      pollLoop retrieve fuel k sleeps = some (s, out) →
      terminal_status s ∧ ∀ d ∈ out, d = 10 := by
  intro fuel
  induction fuel with
  | zero =>
    intro k sleeps s out hsl heq
    rw [pollLoop] at heq
    by_cases ht : terminal_status (retrieve k)
    · rw [if_pos ht] at heq
      simp only [Option.some.injEq, Prod.mk.injEq] at heq
      obtain ⟨h1, h2⟩ := heq
      exact ⟨h1 ▸ ht, h2 ▸ hsl⟩
    · rw [if_neg ht] at heq
      simp at heq
  | succ fuel2 ih =>
    intro k sleeps s out hsl heq
    rw [pollLoop] at heq
    by_cases ht : terminal_status (retrieve k)
    · rw [if_pos ht] at heq
      simp only [Option.some.injEq, Prod.mk.injEq] at heq
      obtain ⟨h1, h2⟩ := heq
      exact ⟨h1 ▸ ht, h2 ▸ hsl⟩
    · rw [if_neg ht] at heq
      refine ih (k + 1) (sleeps ++ [10]) s out ?_ heq
      intro d hd
      rcases List.mem_append.mp hd with hd1 | hd2
      · exact hsl d hd1
      · simpa using hd2

theorem pollLoop_no_terminal (retrieve : Nat → List Char) :
    ∀ (fuel k : Nat) (sleeps : List Nat),
      (∀ m, ¬ terminal_status (retrieve m)) →
      pollLoop retrieve fuel k sleeps = none := by
  intro fuel
  induction fuel with
  | zero =>
    intro k sleeps hnone
    rw [pollLoop, if_neg (hnone k)]
  | succ fuel2 ih =>
    intro k sleeps hnone
    rw [pollLoop, if_neg (hnone k)]
    exact ih (k + 1) (sleeps ++ [10]) hnone

/-- C5: the polling loop exits exactly when the retrieved status is in the
terminal set `{succeeded, failed}`: it stops at the first terminal status,
having slept a fixed 10 seconds between successive retrievals and never
otherwise; if the very first status is terminal the loop body never runs and
zero sleeps are issued; and with no terminal status it never exits normally
(there is no retry cap or timeout). -/
theorem C5_poll_loop :
    (∀ (retrieve : Nat → List Char) (h : ∃ n, terminal_status (retrieve n))
        (fuel : Nat), Nat.find h ≤ fuel →
      pollLoop retrieve fuel 0 []
        = some (retrieve (Nat.find h), List.replicate (Nat.find h) 10)) ∧
    (∀ (retrieve : Nat → List Char) (fuel : Nat), terminal_status (retrieve 0) →
      pollLoop retrieve fuel 0 [] = some (retrieve 0, [])) ∧
    (∀ (retrieve : Nat → List Char) (fuel : Nat) (s : List Char) (sleeps : List Nat),
      pollLoop retrieve fuel 0 [] = some (s, sleeps) →
      terminal_status s ∧ ∀ d ∈ sleeps, d = 10) ∧
    (∀ (retrieve : Nat → List Char) (fuel : Nat),
      (∀ m, ¬ terminal_status (retrieve m)) →
      pollLoop retrieve fuel 0 [] = none) := by
  refine ⟨?_, ?_, ?_, ?_⟩
  · intro retrieve h fuel hfuel
    have hrun := pollLoop_run retrieve (Nat.find h) fuel 0 []
      (fun j hj => by simpa using Nat.find_min h hj)
      (by simpa using Nat.find_spec h) hfuel
    simpa using hrun
  · intro retrieve fuel ht
    cases fuel <;> rw [pollLoop, if_pos ht]
  · intro retrieve fuel s sleeps heq
    exact pollLoop_sound retrieve fuel 0 [] s sleeps (by simp) heq
  · intro retrieve fuel hnone
    exact pollLoop_no_terminal retrieve fuel 0 [] hnone

/-- C5 witness: a first retrieval that is already terminal issues zero sleeps. -/
theorem C5_witness :
    pollLoop (fun _ => "succeeded".data) 5 0 [] = some ("succeeded".data, []) := by
  have h := C5_poll_loop.2.1 (fun _ => "succeeded".data) 5 (by decide)
  simpa using h

theorem pollLoopE_step_error {retrieve : Nat → Except (List Char) (List Char)}
    {k : Nat} {e : List Char} (h : retrieve k = Except.error e) (fuel : Nat) :
    pollLoopE retrieve fuel k = Except.error e := by
  cases fuel <;> rw [pollLoopE, h]

theorem pollLoopE_step_ok {retrieve : Nat → Except (List Char) (List Char)}
    {k : Nat} {s : List Char} (h : retrieve k = Except.ok s)
    (ht : ¬ terminal_status s) (fuel2 : Nat) :
    pollLoopE retrieve (fuel2 + 1) k = pollLoopE retrieve fuel2 (k + 1) := by
  rw [pollLoopE, h]
  show (if terminal_status s then Except.ok (some s)
    else pollLoopE retrieve fuel2 (k + 1)) = pollLoopE retrieve fuel2 (k + 1)
  exact if_neg ht

theorem pollLoopE_error (retrieve : Nat → Except (List Char) (List Char)) :
    ∀ (j fuel k : Nat) (e : List Char),
      (∀ m, m < j → ∃ s, retrieve (k + m) = Except.ok s ∧ ¬ terminal_status s) →
      retrieve (k + j) = Except.error e →
      j ≤ fuel →
      pollLoopE retrieve fuel k = Except.error e := by
  intro j
  induction j with
  | zero =>
    intro fuel k e hok herr hf
    simp only [Nat.add_zero] at herr
    exact pollLoopE_step_error herr fuel
  | succ n ih =>
    intro fuel k e hok herr hf
    obtain ⟨s, hs, hterm⟩ := hok 0 (Nat.succ_pos n)
    simp only [Nat.add_zero] at hs
    cases fuel with
    | zero => omega
    | succ fuel2 =>
      rw [pollLoopE_step_ok hs hterm fuel2]
      refine ih fuel2 (k + 1) e ?_ ?_ (by omega)
      · intro m hm
        obtain ⟨s2, hs2, ht2⟩ := hok (m + 1) (by omega)
        have he : k + (m + 1) = k + 1 + m := by omega
        rw [he] at hs2
        exact ⟨s2, hs2, ht2⟩
      · have he : k + (n + 1) = k + 1 + n := by omega
        rwa [he] at herr

/-- C8: the polling loop performs no error handling around status retrieval:
if some retrieval raises (after any number of successful non-terminal polls),
the exception propagates out of the loop unchanged — the loop defines no
fallback, retry, or catch. -/
theorem C8_poll_error_propagates
    (retrieve : Nat → Except (List Char) (List Char)) (j : Nat) (e : List Char)
    (hok : ∀ m, m < j → ∃ s, retrieve m = Except.ok s ∧ ¬ terminal_status s)
    (herr : retrieve j = Except.error e) :
    ∀ fuel, j ≤ fuel → pollLoopE retrieve fuel 0 = Except.error e := by
  intro fuel hf
  refine pollLoopE_error retrieve j fuel 0 e ?_ (by simpa using herr) hf
  intro m hm
  simpa using hok m hm

/-- C8 witness: a transient failure on the second poll aborts the loop with
that error. -/
theorem C8_witness :
    pollLoopE flakyRetrieve 5 0 = Except.error "connection reset".data := by
  refine C8_poll_error_propagates flakyRetrieve 1 "connection reset".data
    ?_ rfl 5 (by omega)
  intro m hm
  have hm0 : m = 0 := by omega
  subst hm0
  exact ⟨"running".data, rfl, by decide⟩

end Raft
